import Mathlib

/-!
Shallow embedding of the grumptech-fs-hasher core (file-system hash tree and
hash-request admission controller), translated from the JavaScript sources
`fsHashEntryBase.mjs`, `fsDirectoryHashEntry.mjs`, `fsFileHashEntry.js`,
`fsBatchHashEntry.js`, `hashHelper.mjs` and `main.mjs`, together with proofs
about the combination algorithm, the serializer and the facade.

The streaming cryptographic hash primitive is modelled abstractly: a digest
accumulator holds the concatenation of the strings fed into it, and a
parameter function produces the (lowercase) hex digest of that accumulated
input.  `digest('hex').toUpperCase()` is modelled by `jsToUpperCase` composed
with the parameter.
-/

/- ================= JavaScript string primitives ================= -/

/-- Model of JavaScript `String.prototype.toUpperCase` (ASCII contents). -/
def jsToUpperCase (s : String) : String :=
  ⟨s.data.map Char.toUpper⟩

/-- Hex digit character for a value below 16: the decimal digits for values
below ten, the lowercase letters from `a` onward otherwise. -/
def hexChar (n : Nat) : Char :=
  if n < 10 then Char.ofNat (48 + n) else Char.ofNat (87 + n)

/-- Model of Node's `hash.digest('hex')` given the digest bytes: each byte is
rendered as two lowercase hex characters. -/
def hexOfBytes (bs : List Nat) : String :=
  ⟨bs.flatMap (fun b => [hexChar (b / 16 % 16), hexChar (b % 16)])⟩

/-- An uppercase hexadecimal character: a decimal digit or a letter between
`A` and `F`. -/
def isUpperHexChar (c : Char) : Bool :=
  (48 ≤ c.toNat && c.toNat ≤ 57) || (65 ≤ c.toNat && c.toNat ≤ 70)

/-- A string made only of uppercase hexadecimal characters. -/
def isUpperHex (s : String) : Bool :=
  s.data.all isUpperHexChar

/-- Concatenation of a list of strings (the contents fed to a hash
accumulator, in order). -/
def concatAll : List String → String
  | [] => ""
  | s :: rest => s ++ concatAll rest

/- ================= Compute results and the sort step =================

`DirectoryHashEntry.Compute` collects `{source, digest}` child results, sorts
them with the comparator below, and folds them through one accumulator.
`digest` is `undefined`/`null` (absent) when the child produced no digest. -/

/-- A settled `{source, digest}` result of a child `Compute`
(`fsDirectoryHashEntry.mjs`, `Compute`). -/
structure ComputeResult where
  source : String
  digest : Option String
deriving Repr, DecidableEq

/-- JavaScript `<` on (possibly absent) digest values: two strings compare
lexicographically; any comparison involving `undefined`/`null` is false. -/
def jsOptLt : Option String → Option String → Bool
  | some a, some b => decide (a < b)
  | _, _ => false

/-- The comparator passed to `results.sort` in `DirectoryHashEntry.Compute`:
`-1` if `a.digest < b.digest`, `1` if `a.digest > b.digest`, else `0`. -/
def jsDigestCompare (a b : ComputeResult) : Int :=
  if jsOptLt a.digest b.digest then -1
  else if jsOptLt b.digest a.digest then 1
  else 0

/-- Binary search for the insertion point of `pivot` in `l` between `lo` and
`hi`, exactly as the engine's binary-insertion sort computes it: move left
when the comparator says `pivot` is strictly less than the probed element,
right otherwise.  `fuel` bounds the iteration (the interval shrinks each
step, so `fuel = l.length` suffices). -/
def binSearchGo (cmp : α → α → Int) (pivot : α) (l : List α) :
    Nat → Nat → Nat → Nat
  | 0, lo, _ => lo
  | fuel + 1, lo, hi =>
    if lo < hi then
      let mid := (lo + hi) / 2
      if cmp pivot (l.getD mid pivot) < 0 then
        binSearchGo cmp pivot l fuel lo mid
      else
        binSearchGo cmp pivot l fuel (mid + 1) hi
    else lo

/-- Insert one element into the already-processed prefix at the position the
binary search returns. -/
def jsSortInsertOne (cmp : α → α → Int) (acc : List α) (x : α) : List α :=
  let p := binSearchGo cmp x acc acc.length 0 acc.length
  acc.take p ++ x :: acc.drop p

/-- Model of `Array.prototype.sort(cmp)`: a stable binary-insertion sort.
For a consistent comparator this agrees with every conforming engine sort;
for an inconsistent comparator ECMAScript leaves the order
implementation-defined, and this is the order V8's small-array sort
produces. -/
def jsArraySort (cmp : α → α → Int) (l : List α) : List α :=
  l.foldl (jsSortInsertOne cmp) []

/- ================= The digest fold ================= -/

/-- One iteration of the combination loop in `DirectoryHashEntry.Compute`.
The state is the accumulator contents paired with the running digest
(`this._Digest`).  A present child digest is fed into the accumulator first;
then, if no running digest exists yet the child digest is copied unchanged
(also when it is absent), otherwise a present child digest replaces the
running digest with the uppercase-hex snapshot of the accumulator. -/
def updateFold (h : String → String) (st : String × Option String)
    (r : ComputeResult) : String × Option String :=
  let acc := match r.digest with
    | some d => st.1 ++ d
    | none => st.1
  match st.2, r.digest with
  | none, rd => (acc, rd)
  | some d0, none => (acc, some d0)
  | some _, some _ => (acc, some (jsToUpperCase (h acc)))

/-- The full combination step of `DirectoryHashEntry.Compute`: sort the
settled child results with the digest comparator, then fold them through a
fresh accumulator starting from no digest.  `h` is the hex-digest function
of the hashing algorithm. -/
def combineDigest (h : String → String) (results : List ComputeResult) :
    Option String :=
  ((jsArraySort jsDigestCompare results).foldl (updateFold h) ("", none)).2

/-- The digests actually present among a list of settled results, in order. -/
def presentDigests (results : List ComputeResult) : List String :=
  results.filterMap (·.digest)

/-- The digest value of a result that is known to be present
(defaulting to `""`). -/
def dg (r : ComputeResult) : String :=
  r.digest.getD ""

/-- Order on results by digest value, used to state sortedness. -/
def dgLe (a b : ComputeResult) : Prop :=
  dg a ≤ dg b

/- ================= Hash status codes and requests =================

Translated from `hashHelper.mjs`. -/

/-- The `HASH_STATUS` enumeration. -/
inductive HASH_STATUS where
  | STATUS_OK
  | STATUS_ERR_INVALID_ALGORITHM
  | STATUS_ERR_ACCESS_DENIED
  | STATUS_TOO_MANY_FILES_OPEN
  | STATUS_ERR_OTHER
deriving Repr, DecidableEq

/-- A `HashRequest`.  Requests are JavaScript objects compared by reference;
`id` models that object identity. -/
structure HashRequest where
  id : Nat
  source : String
  algorithm : String
  pending : Bool
  dequeueCount : Nat
deriving Repr, DecidableEq

/-- The `HashRequest` constructor: `_pending` starts `false` and
`_dequeueCount` starts `0`. -/
def HashRequest.mkNew (id : Nat) (source algorithm : String) : HashRequest :=
  { id := id, source := source, algorithm := algorithm,
    pending := false, dequeueCount := 0 }

/-- The `IsPending` accessor of `HashRequest`. -/
def HashRequest.IsPending (r : HashRequest) : Bool :=
  r.pending

/-- Events a request (or the serializer) emits, as observed by waiters. -/
inductive HashEvent where
  | dequeued (id : Nat) (count : Nat)
  | pendingEvt (id : Nat)
  | complete (id : Nat) (status : HASH_STATUS) (digest : Option String)
deriving Repr, DecidableEq

/-- The mutable state of `InternalFileHasherSerializer`: the FIFO
`_requestList`, the `_pendingList` of workers (each modelled by the request
it cached), and the `_running` re-entrancy guard. -/
structure Serializer where
  requestList : List HashRequest
  pendingList : List HashRequest
  running : Bool
deriving Repr, DecidableEq

/-- The `InternalFileHasherSerializer` constructor. -/
def Serializer.mkNew : Serializer :=
  { requestList := [], pendingList := [], running := false }

/-- One execution of `InternalFileHasherSerializer.processRequests`,
parameterised by the `Prepare()` outcome for the head request.  If the guard
is set or the queue is empty nothing observable happens.  Otherwise the head
request is peeked (not popped), its dequeue counter incremented, and a worker
constructed for it (the worker constructor assigns `_pending = false`).  On a
too-many-files-open outcome the request stays at the head; on success it is
popped onto the pending list; on any other failure it is popped and its
waiter notified with the failure status and no digest. -/
def processRequests (s : Serializer) (prepareResult : HASH_STATUS) :
    Serializer × List HashEvent :=
  if s.running then (s, [])
  else
    match s.requestList with
    | [] => (s, [])
    | next :: rest =>
      let next' := { next with dequeueCount := next.dequeueCount + 1,
                               pending := false }
      let evDeq := HashEvent.dequeued next'.id next'.dequeueCount
      if prepareResult = HASH_STATUS.STATUS_TOO_MANY_FILES_OPEN then
        ({ s with requestList := next' :: rest }, [evDeq])
      else if prepareResult = HASH_STATUS.STATUS_OK then
        ({ s with requestList := rest,
                  pendingList := s.pendingList ++ [next'] },
         [evDeq, HashEvent.pendingEvt next'.id])
      else
        ({ s with requestList := rest },
         [evDeq, HashEvent.complete next'.id prepareResult none])

/-- `FileHasherSerializer.SubmitHashRequest` on the singleton state: creates
the singleton when absent and appends the request to the to-do list (the
subsequent `processRequests` trigger is modelled as a separate step). -/
def SubmitHashRequest (inst : Option Serializer) (r : HashRequest) :
    Serializer :=
  let s := inst.getD Serializer.mkNew
  { s with requestList := s.requestList ++ [r] }

/-- The serializer `IsActive` accessor. -/
def Serializer.IsActive (s : Serializer) : Bool :=
  decide (s.requestList.length > 0) || decide (s.pendingList.length > 0)

/-- The `_destroySerializer` helper: drops the singleton when inactive. -/
def destroySerializer (inst : Option Serializer) : Option Serializer :=
  match inst with
  | none => none
  | some s => if s.IsActive then some s else none

/-- `FileHasherSerializer.RecindHashRequest`: searches the request list for
the request (by identity) provided it is not pending, reports whether it was
found — and leaves the request list untouched (the source never removes the
found item).  Returns the reported success and the new singleton state. -/
def RecindHashRequest (inst : Option Serializer) (r : HashRequest) :
    Bool × Option Serializer :=
  match inst with
  | none => (false, none)
  | some s =>
    let targetItem := s.requestList.find?
      (fun item => item.id == r.id && !item.IsPending)
    (targetItem.isSome, destroySerializer (some s))

/-- `InternalFileHasherSerializer._workerDone`: the finished worker is
removed from the pending list; when both lists are empty the singleton
self-destructs. -/
def workerDone (s : Serializer) (workerId : Nat) : Option Serializer :=
  let s' := { s with
    pendingList := s.pendingList.filter (fun item => item.id != workerId) }
  if s'.requestList.length > 0 then some s'
  else if s'.pendingList.length ≤ 0 then none
  else some s'

/-- `InternalHashWorker._streamEnd` for a worker whose stream read the given
content: the digest is the uppercase hex digest of the content and the
waiter is notified with `STATUS_OK`.  `hB` is the digest-bytes function of
the hashing algorithm. -/
def workerStreamEnd (hB : String → List Nat) (r : HashRequest)
    (content : String) : HashEvent :=
  HashEvent.complete r.id HASH_STATUS.STATUS_OK
    (some (jsToUpperCase (hexOfBytes (hB content))))

/-- States of the serializer singleton reachable from process start through
the operations the module exposes. -/
inductive SerializerReachable : Option Serializer → Prop where
  | start : SerializerReachable none
  | submit (inst : Option Serializer) (id : Nat) (src alg : String) :
      SerializerReachable inst →
      SerializerReachable (some (SubmitHashRequest inst (HashRequest.mkNew id src alg)))
  | step (s : Serializer) (outcome : HASH_STATUS) :
      SerializerReachable (some s) →
      SerializerReachable (some (processRequests s outcome).1)
  | finish (s : Serializer) (workerId : Nat) :
      SerializerReachable (some s) →
      SerializerReachable (workerDone s workerId)
  | recind (s : Serializer) (r : HashRequest) :
      SerializerReachable (some s) →
      SerializerReachable (RecindHashRequest (some s) r).2

/- ================= The file-system hash tree =================

Translated from `fsHashEntryBase.mjs`, `fsFileHashEntry.js`,
`fsDirectoryHashEntry.mjs` and `fsBatchHashEntry.js`.  A node carries the
state fields of `FileSystemHashEntryBase` (`_source`, `_digest`, `_busy`)
plus its `_childItems`.  `source = none` models the `undefined` source of a
node that was never built; for a batch node the field holds the value of the
comma-joining `Source` getter. -/

/-- The file-system type of a node (`FILE_SYSTEM_TYPES` members that tag
constructed nodes). -/
inductive FSKind where
  | file
  | directory
  | batch
deriving Repr, DecidableEq

mutual

/-- A node of the built hash tree. -/
inductive FsTree where
  | node (kind : FSKind) (source : Option String) (depth : Nat)
      (digest : Option String) (busy : Bool) (children : FsForest)
deriving Repr, DecidableEq

/-- The `_childItems` array of a node. -/
inductive FsForest where
  | nil
  | cons (t : FsTree) (ts : FsForest)
deriving Repr, DecidableEq

end

/-- The kind of a node. -/
def FsTree.kind : FsTree → FSKind
  | .node k _ _ _ _ _ => k

/-- The `_source` field of a node. -/
def FsTree.source : FsTree → Option String
  | .node _ s _ _ _ _ => s

/-- The `_digest` field of a node. -/
def FsTree.digest : FsTree → Option String
  | .node _ _ _ d _ _ => d

/-- The `_busy` flag of a node. -/
def FsTree.busyFlag : FsTree → Bool
  | .node _ _ _ _ b _ => b

/-- The `_depth` field of a node. -/
def FsTree.depth : FsTree → Nat
  | .node _ _ d _ _ _ => d

/-- The `_childItems` of a node. -/
def FsTree.children : FsTree → FsForest
  | .node _ _ _ _ _ cs => cs

/-- The `Source && typeof Source === 'string' && Source.length > 0` guard
used by `Compute` and `Report`. -/
def sourceOk (t : FsTree) : Bool :=
  match t.source with
  | some s => decide (s.length > 0)
  | none => false

mutual

/-- The `IsBusy` property.  `FileSystemHashEntryBase.IsBusy` returns the own
flag; `DirectoryHashEntry.IsBusy` (inherited by the batch class) additionally
ORs in every child's `IsBusy`. -/
def isBusyT : FsTree → Bool
  | .node k _ _ _ b cs =>
    match k with
    | .file => b
    | .directory => b || isBusyF cs
    | .batch => b || isBusyF cs

/-- `IsBusy` over a child list. -/
def isBusyF : FsForest → Bool
  | .nil => false
  | .cons t ts => isBusyT t || isBusyF ts

end

mutual

/-- All nodes of a subtree, in pre-order (the tree itself, then the nodes of
its children in listing order). -/
def allNodes : FsTree → List FsTree
  | t@(.node _ _ _ _ _ cs) => t :: allNodesF cs

/-- All nodes below a child list. -/
def allNodesF : FsForest → List FsTree
  | .nil => []
  | .cons t ts => allNodes t ++ allNodesF ts

end

mutual

/-- Well-formedness of a built tree: a file node has no children and every
child of a directory or batch node is a file or a directory (these are the
only child nodes `Build` ever constructs). -/
def wellFormedT : FsTree → Bool
  | .node k _ _ _ _ cs =>
    match k with
    | .file => match cs with
      | .nil => true
      | .cons _ _ => false
    | _ => wellFormedF cs

/-- Well-formedness of a child list. -/
def wellFormedF : FsForest → Bool
  | .nil => true
  | .cons t ts =>
    (t.kind == FSKind.file || t.kind == FSKind.directory) &&
      wellFormedT t && wellFormedF ts

end

mutual

/-- The `Compute` operation, returning the settled `{source, digest}` value.
`hB` is the digest-bytes function of the algorithm's hash primitive,
`content` gives the bytes a file's read stream delivers (absent when the
stream fails), and `algOk` tells whether `crypto.createHash` accepts the
algorithm name.  A file node resolves the uppercase-hex digest of its
content on success and an absent digest when its source is invalid, it is
busy, or hashing failed.  A directory or batch node with a valid source and
a non-busy subtree combines its children's settled results — directories
before files, as `_Children` orders them — with `combineDigest`; when
`createHash` rejects the algorithm the exception handler resolves an absent
digest (and raises, see `FSHashError`). -/
def computeT (hB : String → List Nat) (content : String → Option String)
    (algOk : Bool) : FsTree → ComputeResult
  | t@(.node k _ _ _ b cs) =>
    let srcStr := (FsTree.source t).getD ""
    match k with
    | .file =>
      if sourceOk t && !b then
        { source := srcStr,
          digest := (content srcStr).map
            (fun c => jsToUpperCase (hexOfBytes (hB c))) }
      else
        { source := srcStr, digest := none }
    | _ =>
      if sourceOk t && !isBusyT t then
        if algOk then
          { source := srcStr,
            digest := combineDigest (fun s => hexOfBytes (hB s))
              (computeResultsD hB content algOk cs ++
               computeResultsF hB content algOk cs) }
        else
          { source := srcStr, digest := none }
      else
        { source := srcStr, digest := none }

/-- Settled results of the directory-kind children, in listing order (the
`children.directories` part of `_Children`). -/
def computeResultsD (hB : String → List Nat) (content : String → Option String)
    (algOk : Bool) : FsForest → List ComputeResult
  | .nil => []
  | .cons t ts =>
    (if t.kind == FSKind.directory
      then [computeT hB content algOk t] else []) ++
    computeResultsD hB content algOk ts

/-- Settled results of the file-kind children, in listing order (the
`children.files` part of `_Children`). -/
def computeResultsF (hB : String → List Nat) (content : String → Option String)
    (algOk : Bool) : FsForest → List ComputeResult
  | .nil => []
  | .cons t ts =>
    (if t.kind == FSKind.file
      then [computeT hB content algOk t] else []) ++
    computeResultsF hB content algOk ts

end

/- ================= Report ================= -/

/-- The record `FileSystemHashEntryBase.Report` resolves on success. -/
structure ReportRecord where
  rtype : FSKind
  source : String
  depth : Nat
  digest : Option String
deriving Repr, DecidableEq

/-- `FileSystemHashEntryBase.Report`: resolves the node's record when the
source is a non-empty string and the node is not busy (`IsBusy` is the
dynamically dispatched property, so for a directory it covers the whole
subtree), and `null` otherwise. -/
def baseReportVal (t : FsTree) : Option ReportRecord :=
  if sourceOk t && !isBusyT t then
    some { rtype := t.kind, source := (t.source).getD "",
           depth := t.depth, digest := t.digest }
  else none

/-- The JavaScript value a node's `Report` resolves with: a single (possibly
`null`) record for a file, an array of records for a directory or batch. -/
inductive ReportValue where
  | single (r : Option ReportRecord)
  | list (rs : List (Option ReportRecord))
deriving Repr, DecidableEq

/-- How `DirectoryHashEntry.Report` appends one child's resolved report:
a `null` single report fails the `existy` test and is skipped, a present
single report is pushed, and an array is concatenated wholesale (arrays are
always `existy`, even when they contain `null` entries). -/
def appendChildReport : ReportValue → List (Option ReportRecord)
  | .single none => []
  | .single (some r) => [some r]
  | .list rs => rs

mutual

/-- The `Report` operation.  A file resolves its base record (or `null`).
A directory or batch resolves an array whose first entry is its own base
record — which is `null` when the node is unbuilt or its subtree is busy, in
which case the children are not visited and the resolved array is exactly
`[null]` — followed by the children's flattened reports, directories before
files as `_Children` orders them. -/
def reportT : FsTree → ReportValue
  | t@(.node k _ _ _ _ cs) =>
    match k with
    | .file => .single (baseReportVal t)
    | _ => .list (
        match baseReportVal t with
        | none => [none]
        | some r =>
          some r :: (reportChildrenD cs ++ reportChildrenF cs))

/-- Flattened reports of the directory-kind children, in listing order. -/
def reportChildrenD : FsForest → List (Option ReportRecord)
  | .nil => []
  | .cons t ts =>
    (if t.kind == FSKind.directory then appendChildReport (reportT t)
     else []) ++ reportChildrenD ts

/-- Flattened reports of the file-kind children, in listing order. -/
def reportChildrenF : FsForest → List (Option ReportRecord)
  | .nil => []
  | .cons t ts =>
    (if t.kind == FSKind.file then appendChildReport (reportT t)
     else []) ++ reportChildrenF ts

end

/- ================= Build result distillation =================

`DirectoryHashEntry.Build` (and `BatchHashEntry.Build`) classify each listing
entry, construct a child only for the `FILE` and `DIRECTORY` classifications,
build all constructed children, and distill the boolean results. -/

/-- One entry of a directory listing (or of a batch source array) as `Build`
classifies it: a constructed directory child with its build result, a
constructed file child with its build result, or an entry whose
classification (`OTHER`, `BATCH`, `INVALID`) constructs no child. -/
inductive DirEntryClass where
  | dirChild (built : Bool)
  | fileChild (built : Bool)
  | skipped
deriving Repr, DecidableEq

/-- The build results of the children actually constructed, in order. -/
def childBuildResults (entries : List DirEntryClass) : List Bool :=
  entries.filterMap fun e =>
    match e with
    | .dirChild b => some b
    | .fileChild b => some b
    | .skipped => none

/-- The value `DirectoryHashEntry.Build` resolves once the source is known to
be a readable directory: an empty listing resolves `true`; otherwise the
result starts as `childBuildPromises.length > 0` and is ANDed with every
child result. -/
def dirBuildResult (entries : List DirEntryClass) : Bool :=
  if entries.length > 0 then
    decide ((childBuildResults entries).length > 0) &&
      (childBuildResults entries).all id
  else true

/-- The value `BatchHashEntry.Build` resolves once the source is known to be
a batch: there is no empty-listing special case — the result starts as
`childBuildPromises.length > 0` and is ANDed with every child result. -/
def batchBuildResult (items : List DirEntryClass) : Bool :=
  decide ((childBuildResults items).length > 0) &&
    (childBuildResults items).all id

/- ================= Errors raised by Compute ================= -/

/-- The `FSHashError` condition (`fsHashErrors`): carries the source, the
algorithm, the error detail and the reporting file name. -/
structure FSHashError where
  source : Option String
  algorithm : Option String
  errDetail : Option String
  filename : Option String
deriving Repr, DecidableEq

/-- The body of `DirectoryHashEntry.Compute` after the busy/source guard:
when no exception occurs the combination produces the node's digest; when
the combination step throws (detail `exc`), the catch handler clears busy,
resolves the node with digest `null`, and raises an `FSHashError` carrying
the source, the algorithm and the detail. -/
def dirComputeCombineRun (h : String → String) (src alg : String)
    (results : List ComputeResult) (exc : Option String) :
    ComputeResult × Option FSHashError :=
  match exc with
  | none => ({ source := src, digest := combineDigest h results }, none)
  | some detail =>
    ({ source := src, digest := none },
     some { source := some src, algorithm := some alg,
            errDetail := some detail,
            filename := some "fsDirectoryHashEntry.js DirectoryHashEntry::Compute" })

/- ================= The facade (`main.mjs`) ================= -/

/-- The `FILE_SYSTEM_TYPES` enumeration used to classify a root source. -/
inductive FILE_SYSTEM_TYPES where
  | INVALID
  | FILE
  | DIRECTORY
  | BATCH
  | OTHER
deriving Repr, DecidableEq

/-- `FSHasherInternal.Build`: only the `DIRECTORY`, `FILE` and `BATCH`
classifications construct a root source whose own build outcome is awaited;
for `OTHER` and `INVALID` no root source exists and the promise resolves the
initial `success = false`. -/
def facadeBuildVal (classification : FILE_SYSTEM_TYPES)
    (buildOutcome : Bool) : Bool :=
  match classification with
  | .DIRECTORY => buildOutcome
  | .FILE => buildOutcome
  | .BATCH => buildOutcome
  | .OTHER => false
  | .INVALID => false

/-- `FSHasherInternal.IsBusy`: false without a root source, else the root's
`IsBusy`. -/
def facadeIsBusy (root : Option FsTree) : Bool :=
  match root with
  | none => false
  | some t => isBusyT t

/-- `FSHasherInternal.Compute`: resolves `''` when there is no root source
or the root source is busy, and otherwise the `digest` field of the root's
settled compute result (which may itself be absent). -/
def facadeComputeVal (hB : String → List Nat)
    (content : String → Option String) (algOk : Bool)
    (root : Option FsTree) : Option String :=
  match root with
  | none => some ""
  | some t =>
    if isBusyT t then some ""
    else (computeT hB content algOk t).digest

/-- `FSHasherInternal._translateFSType` restricted to the kinds of
constructed nodes. -/
def translateFSType : FSKind → String
  | .directory => "(D)"
  | .file => "(F)"
  | .batch => "(B)"

/-- The string interpolation of a possibly-absent digest in the CSV report
(JavaScript renders `undefined` as the string `"undefined"`). -/
def csvDigestString : Option String → String
  | some d => d
  | none => "undefined"

/-- `item.source.padStart(item.source.length + item.depth, ' ')`. -/
def padSource (src : String) (depth : Nat) : String :=
  String.mk (List.replicate depth ' ') ++ src

/-- One CSV line of the facade report. -/
def csvLineOf (r : ReportRecord) : String :=
  translateFSType r.rtype ++ ";>" ++ padSource r.source r.depth ++ ";" ++
    csvDigestString r.digest ++ "\n"

/-- `FSHasherInternal.Report`: resolves `''` when there is no root source or
the root source is busy; otherwise renders the flattened report as CSV
lines.  (Under the not-busy guard every record of the flattened report is
present; absent entries — impossible here — are skipped.) -/
def facadeReportVal (root : Option FsTree) : String :=
  match root with
  | none => ""
  | some t =>
    if isBusyT t then ""
    else
      match reportT t with
      | .single none => ""
      | .single (some r) => csvLineOf r
      | .list rs => concatAll (rs.filterMap (fun o => o.map csvLineOf))

/- ================= Lemmas: the sort step ================= -/

theorem jsSortInsertOne_perm (cmp : α → α → Int) (acc : List α) (x : α) :
    (jsSortInsertOne cmp acc x).Perm (x :: acc) := by
  unfold jsSortInsertOne
  exact (List.perm_middle).trans (by rw [List.take_append_drop])

theorem jsArraySort_foldl_perm (cmp : α → α → Int) :
    ∀ (l acc : List α), (l.foldl (jsSortInsertOne cmp) acc).Perm (acc ++ l) := by
  intro l
  induction l with
  | nil => intro acc; simp
  | cons x xs ih =>
    intro acc
    have h1 : ((x :: xs).foldl (jsSortInsertOne cmp) acc) =
        xs.foldl (jsSortInsertOne cmp) (jsSortInsertOne cmp acc x) := rfl
    rw [h1]
    refine (ih _).trans ?_
    refine (((jsSortInsertOne_perm cmp acc x).append_right xs).trans ?_)
    exact List.perm_middle.symm

theorem jsArraySort_perm (cmp : α → α → Int) (l : List α) :
    (jsArraySort cmp l).Perm l := by
  simpa using jsArraySort_foldl_perm cmp l []

theorem jsDigestCompare_lt_iff {a b : ComputeResult}
    (ha : a.digest.isSome) (hb : b.digest.isSome) :
    (jsDigestCompare a b < 0) ↔ dg a < dg b := by
  obtain ⟨da, hda⟩ := Option.isSome_iff_exists.mp ha
  obtain ⟨db, hdb⟩ := Option.isSome_iff_exists.mp hb
  simp only [jsDigestCompare, jsOptLt, hda, hdb, dg, Option.getD_some]
  split_ifs with h1 h2
  · exact iff_of_true (by decide) (of_decide_eq_true h1)
  · refine iff_of_false (by decide) ?_
    exact fun hc => h1 (decide_eq_true hc)
  · refine iff_of_false (by decide) ?_
    exact fun hc => h1 (decide_eq_true hc)

theorem jsDigestCompare_not_lt_iff {a b : ComputeResult}
    (ha : a.digest.isSome) (hb : b.digest.isSome) :
    ¬(jsDigestCompare a b < 0) ↔ dg b ≤ dg a := by
  rw [jsDigestCompare_lt_iff ha hb, not_lt]

theorem binSearchGo_insertSpec
    {l : List ComputeResult} {pivot : ComputeResult}
    (hsort : List.Sorted dgLe l)
    (hpres : ∀ r ∈ l, r.digest.isSome = true)
    (hp : pivot.digest.isSome = true) :
    ∀ (fuel lo hi : Nat), hi ≤ l.length → lo ≤ hi → hi - lo ≤ fuel →
      (∀ (i : Nat) (h : i < l.length), i < lo → dg (l.get ⟨i, h⟩) ≤ dg pivot) →
      (∀ (i : Nat) (h : i < l.length), hi ≤ i → dg pivot < dg (l.get ⟨i, h⟩)) →
      lo ≤ binSearchGo jsDigestCompare pivot l fuel lo hi ∧
      binSearchGo jsDigestCompare pivot l fuel lo hi ≤ hi ∧
      (∀ (i : Nat) (h : i < l.length),
        i < binSearchGo jsDigestCompare pivot l fuel lo hi →
          dg (l.get ⟨i, h⟩) ≤ dg pivot) ∧
      (∀ (i : Nat) (h : i < l.length),
        binSearchGo jsDigestCompare pivot l fuel lo hi ≤ i →
          dg pivot < dg (l.get ⟨i, h⟩)) := by
  intro fuel
  induction fuel with
  | zero =>
    intro lo hi hhi hlo hfuel hpre1 hpre2
    have heq : lo = hi := by omega
    subst heq
    exact ⟨le_refl _, le_refl _, hpre1, hpre2⟩
  | succ fuel ih =>
    intro lo hi hhi hlo hfuel hpre1 hpre2
    by_cases hlt : lo < hi
    · have hmidlo : lo ≤ (lo + hi) / 2 := by omega
      have hmidhi : (lo + hi) / 2 < hi := by omega
      have hmidlen : (lo + hi) / 2 < l.length := lt_of_lt_of_le hmidhi hhi
      have hgetD : l.getD ((lo + hi) / 2) pivot = l.get ⟨(lo + hi) / 2, hmidlen⟩ := by
        rw [List.getD_eq_getElem l pivot hmidlen]
        simp
      have hstep : binSearchGo jsDigestCompare pivot l (fuel + 1) lo hi =
          (if jsDigestCompare pivot (l.get ⟨(lo + hi) / 2, hmidlen⟩) < 0 then
            binSearchGo jsDigestCompare pivot l fuel lo ((lo + hi) / 2)
          else
            binSearchGo jsDigestCompare pivot l fuel ((lo + hi) / 2 + 1) hi) := by
        simp only [binSearchGo, if_pos hlt, hgetD]
      have hmem : l.get ⟨(lo + hi) / 2, hmidlen⟩ ∈ l := List.get_mem l _ _
      have hmidpres := hpres _ hmem
      by_cases hcmp : jsDigestCompare pivot (l.get ⟨(lo + hi) / 2, hmidlen⟩) < 0
      · have hlt2 : dg pivot < dg (l.get ⟨(lo + hi) / 2, hmidlen⟩) :=
          (jsDigestCompare_lt_iff hp hmidpres).mp hcmp
        have hres := ih lo ((lo + hi) / 2) (le_of_lt hmidlen) hmidlo (by omega)
          hpre1
          (fun i h hi' => by
            rcases eq_or_lt_of_le hi' with heq | hlt3
            · have : l.get ⟨i, h⟩ = l.get ⟨(lo + hi) / 2, hmidlen⟩ := by
                congr 1
                exact (Fin.mk_eq_mk.mpr heq.symm)
              rw [this]
              exact hlt2
            · have hrel : dgLe (l.get ⟨(lo + hi) / 2, hmidlen⟩) (l.get ⟨i, h⟩) :=
                hsort.rel_get_of_lt (Fin.mk_lt_mk.mpr hlt3)
              exact lt_of_lt_of_le hlt2 hrel)
        rw [hstep, if_pos hcmp]
        exact ⟨hres.1, le_trans hres.2.1 (le_of_lt hmidhi), hres.2.2.1, hres.2.2.2⟩
      · have hge : dg (l.get ⟨(lo + hi) / 2, hmidlen⟩) ≤ dg pivot :=
          (jsDigestCompare_not_lt_iff hp hmidpres).mp hcmp
        have hres := ih ((lo + hi) / 2 + 1) hi hhi (by omega) (by omega)
          (fun i h hi' => by
            rcases Nat.lt_succ_iff_lt_or_eq.mp hi' with hlt3 | heq
            · have hrel : dgLe (l.get ⟨i, h⟩) (l.get ⟨(lo + hi) / 2, hmidlen⟩) :=
                hsort.rel_get_of_lt (Fin.mk_lt_mk.mpr hlt3)
              exact le_trans hrel hge
            · have : l.get ⟨i, h⟩ = l.get ⟨(lo + hi) / 2, hmidlen⟩ := by
                congr 1
                exact (Fin.mk_eq_mk.mpr heq)
              rw [this]
              exact hge)
          hpre2
        rw [hstep, if_neg hcmp]
        exact ⟨le_trans (by omega) hres.1, hres.2.1, hres.2.2.1, hres.2.2.2⟩
    · have heq : lo = hi := by omega
      subst heq
      have hstep : binSearchGo jsDigestCompare pivot l (fuel + 1) lo lo = lo := by
        simp only [binSearchGo, if_neg hlt]
      rw [hstep]
      exact ⟨le_refl _, le_refl _, hpre1, hpre2⟩

theorem jsSortInsertOne_sorted {acc : List ComputeResult} {x : ComputeResult}
    (hsort : List.Sorted dgLe acc)
    (hall : ∀ r ∈ acc, r.digest.isSome = true)
    (hx : x.digest.isSome = true) :
    List.Sorted dgLe (jsSortInsertOne jsDigestCompare acc x) := by
  obtain ⟨h1, h2, h3, h4⟩ := binSearchGo_insertSpec hsort hall hx
    acc.length 0 acc.length (le_refl _) (Nat.zero_le _) (by omega)
    (fun i h hi' => absurd hi' (Nat.not_lt_zero i))
    (fun i h hi' => absurd h (by omega))
  set p := binSearchGo jsDigestCompare x acc acc.length 0 acc.length with hp
  show List.Sorted dgLe (acc.take p ++ x :: acc.drop p)
  have hdrop : ∀ b ∈ acc.drop p, dg x < dg b := by
    intro b hb
    obtain ⟨j, hget⟩ := List.mem_iff_get.mp hb
    have hjlen : p + j.val < acc.length := by
      have hj := j.isLt
      simp only [List.length_drop] at hj
      omega
    have hbeq : b = acc.get ⟨p + j.val, hjlen⟩ := by
      rw [← hget]
      simp [List.get_eq_getElem, List.getElem_drop]
    rw [hbeq]
    exact h4 (p + j.val) hjlen (by omega)
  refine List.pairwise_append.mpr ⟨?_, ?_, ?_⟩
  · exact List.Pairwise.sublist (List.take_sublist p acc) hsort
  · refine List.pairwise_cons.mpr
      ⟨?_, List.Pairwise.sublist (List.drop_sublist p acc) hsort⟩
    intro b hb
    exact le_of_lt (hdrop b hb)
  · intro a ha b hb
    obtain ⟨i, hgeti⟩ := List.mem_iff_get.mp ha
    have hilen : i.val < acc.length := by
      have hi := i.isLt
      simp only [List.length_take] at hi
      omega
    have hipp : i.val < p := by
      have hi := i.isLt
      simp only [List.length_take] at hi
      omega
    have haeq : a = acc.get ⟨i.val, hilen⟩ := by
      rw [← hgeti]
      simp [List.get_eq_getElem, List.getElem_take]
    have hax : dg a ≤ dg x := by
      rw [haeq]
      exact h3 i.val hilen hipp
    rcases List.mem_cons.mp hb with hbx | hbd
    · show dg a ≤ dg b
      rw [hbx]
      exact hax
    · exact le_trans hax (le_of_lt (hdrop b hbd))

theorem jsArraySort_sorted_aux :
    ∀ (l acc : List ComputeResult), List.Sorted dgLe acc →
      (∀ r ∈ acc, r.digest.isSome = true) →
      (∀ r ∈ l, r.digest.isSome = true) →
      List.Sorted dgLe (l.foldl (jsSortInsertOne jsDigestCompare) acc) := by
  intro l
  induction l with
  | nil => intro acc hs _ _; exact hs
  | cons x xs ih =>
    intro acc hs hacc hl
    have hx : x.digest.isSome = true := hl x (by simp)
    have hxs : ∀ r ∈ xs, r.digest.isSome = true := fun r hr => hl r (by simp [hr])
    have hins := jsSortInsertOne_sorted hs hacc hx
    have hinsall : ∀ r ∈ jsSortInsertOne jsDigestCompare acc x,
        r.digest.isSome = true := by
      intro r hr
      have hmem := (jsSortInsertOne_perm jsDigestCompare acc x).mem_iff.mp hr
      rcases List.mem_cons.mp hmem with h | h
      · rw [h]; exact hx
      · exact hacc r h
    exact ih _ hins hinsall hxs

theorem jsArraySort_sorted {l : List ComputeResult}
    (hall : ∀ r ∈ l, r.digest.isSome = true) :
    List.Sorted dgLe (jsArraySort jsDigestCompare l) :=
  jsArraySort_sorted_aux l [] (List.sorted_nil) (by intro r hr; cases hr) hall

/- ================= Lemmas: the digest fold ================= -/

theorem updateFold_absent (h : String → String) (st : String × Option String)
    {r : ComputeResult} (hr : r.digest = none) : updateFold h st r = st := by
  obtain ⟨acc0, dig0⟩ := st
  cases dig0 <;> simp [updateFold, hr]

theorem presentDigests_cons_absent {r : ComputeResult} {l : List ComputeResult}
    (hr : r.digest = none) : presentDigests (r :: l) = presentDigests l := by
  simp [presentDigests, List.filterMap_cons, hr]

theorem presentDigests_cons_present {r : ComputeResult} {l : List ComputeResult}
    {d : String} (hr : r.digest = some d) :
    presentDigests (r :: l) = d :: presentDigests l := by
  simp [presentDigests, List.filterMap_cons, hr]

theorem foldl_updateFold_some (h : String → String) :
    ∀ (l : List ComputeResult) (acc d0 : String),
      l.foldl (updateFold h) (acc, some d0) =
        (acc ++ concatAll (presentDigests l),
         if presentDigests l = [] then some d0
         else some (jsToUpperCase (h (acc ++ concatAll (presentDigests l))))) := by
  intro l
  induction l with
  | nil =>
    intro acc d0
    simp [presentDigests, concatAll, String.append_empty]
  | cons r l' ih =>
    intro acc d0
    cases hr : r.digest with
    | none =>
      rw [List.foldl_cons, updateFold_absent h _ hr,
        presentDigests_cons_absent hr, ih]
    | some d =>
      have hstep : updateFold h (acc, some d0) r =
          (acc ++ d, some (jsToUpperCase (h (acc ++ d)))) := by
        simp [updateFold, hr]
      rw [List.foldl_cons, hstep, ih, presentDigests_cons_present hr]
      by_cases hP : presentDigests l' = []
      · simp [hP, concatAll, String.append_empty]
      · simp only [hP, if_false, concatAll]
        have hne : (d :: presentDigests l') ≠ [] := by simp
        simp [hne, String.append_assoc]

theorem foldl_updateFold_none_nil (h : String → String) :
    ∀ (l : List ComputeResult) (acc : String), presentDigests l = [] →
      l.foldl (updateFold h) (acc, none) = (acc, none) := by
  intro l
  induction l with
  | nil => intro acc _; rfl
  | cons r l' ih =>
    intro acc hP
    cases hr : r.digest with
    | none =>
      rw [List.foldl_cons, updateFold_absent h _ hr]
      exact ih acc (by rwa [presentDigests_cons_absent hr] at hP)
    | some d =>
      rw [presentDigests_cons_present hr] at hP
      cases hP

theorem foldl_updateFold_none_cons (h : String → String) :
    ∀ (l : List ComputeResult) (acc d : String) (rest : List String),
      presentDigests l = d :: rest →
      l.foldl (updateFold h) (acc, none) =
        (acc ++ d ++ concatAll rest,
         if rest = [] then some d
         else some (jsToUpperCase (h (acc ++ d ++ concatAll rest)))) := by
  intro l
  induction l with
  | nil => intro acc d rest hP; cases hP
  | cons r l' ih =>
    intro acc d rest hP
    cases hr : r.digest with
    | none =>
      rw [presentDigests_cons_absent hr] at hP
      rw [List.foldl_cons, updateFold_absent h _ hr]
      exact ih acc d rest hP
    | some d' =>
      rw [presentDigests_cons_present hr] at hP
      injection hP with hd hrest
      rw [hd] at hr
      have hstep : updateFold h (acc, none) r = (acc ++ d, some d) := by
        simp [updateFold, hr]
      rw [List.foldl_cons, hstep, foldl_updateFold_some h l' (acc ++ d) d, hrest]

theorem presentDigests_sort_perm (results : List ComputeResult) :
    (presentDigests (jsArraySort jsDigestCompare results)).Perm
      (presentDigests results) := by
  unfold presentDigests
  exact (jsArraySort_perm jsDigestCompare results).filterMap (·.digest)

theorem combineDigest_of_no_present {h : String → String}
    {results : List ComputeResult} (hP : presentDigests results = []) :
    combineDigest h results = none := by
  have hnil : presentDigests (jsArraySort jsDigestCompare results) = [] :=
    List.Perm.eq_nil (hP ▸ presentDigests_sort_perm results)
  unfold combineDigest
  rw [foldl_updateFold_none_nil h _ "" hnil]

theorem combineDigest_sorted_form {h : String → String}
    {results : List ComputeResult} {d : String} {rest : List String}
    (hP : presentDigests (jsArraySort jsDigestCompare results) = d :: rest) :
    combineDigest h results =
      if rest = [] then some d
      else some (jsToUpperCase (h (d ++ concatAll rest))) := by
  unfold combineDigest
  rw [foldl_updateFold_none_cons h _ "" d rest hP]
  simp [String.empty_append]

theorem combineDigest_of_single_present {h : String → String}
    {results : List ComputeResult} {d : String}
    (hP : presentDigests results = [d]) :
    combineDigest h results = some d := by
  have hone : presentDigests (jsArraySort jsDigestCompare results) = [d] :=
    List.perm_singleton.mp (hP ▸ presentDigests_sort_perm results)
  rw [combineDigest_sorted_form hone]
  simp

theorem presentDigests_eq_map_dg {l : List ComputeResult}
    (hall : ∀ r ∈ l, r.digest.isSome = true) :
    presentDigests l = l.map dg := by
  induction l with
  | nil => rfl
  | cons r l' ih =>
    have hr := hall r (by simp)
    obtain ⟨d, hd⟩ := Option.isSome_iff_exists.mp hr
    have hrest : ∀ x ∈ l', x.digest.isSome = true :=
      fun x hx => hall x (by simp [hx])
    simp [presentDigests_cons_present hd, dg, hd, ih hrest]

theorem sortedDigests_eq_insertionSort {results : List ComputeResult}
    (hall : ∀ r ∈ results, r.digest.isSome = true) :
    presentDigests (jsArraySort jsDigestCompare results) =
      List.insertionSort (· ≤ ·) (presentDigests results) := by
  have hallSorted : ∀ r ∈ jsArraySort jsDigestCompare results,
      r.digest.isSome = true :=
    fun r hr => hall r ((jsArraySort_perm jsDigestCompare results).subset hr)
  have h1 : presentDigests (jsArraySort jsDigestCompare results) =
      (jsArraySort jsDigestCompare results).map dg :=
    presentDigests_eq_map_dg hallSorted
  have hsorted : List.Sorted (fun a b : String => a ≤ b)
      ((jsArraySort jsDigestCompare results).map dg) :=
    List.Pairwise.map dg (fun _ _ hab => hab) (jsArraySort_sorted hall)
  have hperm : ((jsArraySort jsDigestCompare results).map dg).Perm
      (presentDigests results) := by
    rw [presentDigests_eq_map_dg hall]
    exact (jsArraySort_perm jsDigestCompare results).map dg
  rw [h1]
  exact List.eq_of_perm_of_sorted
    (hperm.trans (List.perm_insertionSort (· ≤ ·) (presentDigests results)).symm)
    hsorted
    (List.sorted_insertionSort (· ≤ ·) (presentDigests results))

/- ================= Lemmas: the admission controller ================= -/

theorem processRequests_tooMany {s : Serializer} {req : HashRequest}
    {rest : List HashRequest}
    (hq : s.requestList = req :: rest) (hr : s.running = false) :
    processRequests s HASH_STATUS.STATUS_TOO_MANY_FILES_OPEN =
      ({ s with requestList :=
          { req with dequeueCount := req.dequeueCount + 1,
                     pending := false } :: rest },
       [HashEvent.dequeued req.id (req.dequeueCount + 1)]) := by
  simp [processRequests, hq, hr]

theorem processRequests_ok {s : Serializer} {req : HashRequest}
    {rest : List HashRequest}
    (hq : s.requestList = req :: rest) (hr : s.running = false) :
    processRequests s HASH_STATUS.STATUS_OK =
      ({ s with requestList := rest,
                pendingList := s.pendingList ++
                  [{ req with dequeueCount := req.dequeueCount + 1,
                              pending := false }] },
       [HashEvent.dequeued req.id (req.dequeueCount + 1),
        HashEvent.pendingEvt req.id]) := by
  simp [processRequests, hq, hr]

theorem processRequests_fatal {s : Serializer} {req : HashRequest}
    {rest : List HashRequest} {outcome : HASH_STATUS}
    (hq : s.requestList = req :: rest) (hr : s.running = false)
    (h1 : outcome ≠ HASH_STATUS.STATUS_TOO_MANY_FILES_OPEN)
    (h2 : outcome ≠ HASH_STATUS.STATUS_OK) :
    processRequests s outcome =
      ({ s with requestList := rest },
       [HashEvent.dequeued req.id (req.dequeueCount + 1),
        HashEvent.complete req.id outcome none]) := by
  simp [processRequests, hq, hr, h1, h2]

theorem processRequests_iterate_tooMany :
    ∀ (N : Nat) (s : Serializer) (req : HashRequest) (rest : List HashRequest),
      s.requestList = req :: rest → s.running = false →
      ((fun st => (processRequests st HASH_STATUS.STATUS_TOO_MANY_FILES_OPEN).1)^[N]) s =
        { s with requestList :=
            { req with dequeueCount := req.dequeueCount + N,
                       pending := if N = 0 then req.pending else false } :: rest } := by
  intro N
  induction N with
  | zero =>
    intro s req rest hq hr
    simp only [Function.iterate_zero, id_eq, Nat.add_zero, if_pos rfl]
    cases s with
    | mk q p run =>
      cases req with
      | mk i src alg pnd dc =>
        simp at hq
        simp [hq]
  | succ N ih =>
    intro s req rest hq hr
    rw [Function.iterate_succ_apply', ih s req rest hq hr]
    simp [processRequests, hr, Nat.add_assoc]

theorem processRequests_preserves_pending (s : Serializer)
    (outcome : HASH_STATUS)
    (h1 : ∀ r ∈ s.requestList, r.pending = false)
    (h2 : ∀ r ∈ s.pendingList, r.pending = false) :
    (∀ r ∈ (processRequests s outcome).1.requestList, r.pending = false) ∧
    (∀ r ∈ (processRequests s outcome).1.pendingList, r.pending = false) := by
  by_cases hrun : s.running
  · simp only [processRequests, hrun, if_true]
    exact ⟨h1, h2⟩
  · cases hq : s.requestList with
    | nil =>
      simp only [processRequests, hrun, if_false, hq, Bool.false_eq_true]
      exact ⟨fun r hr => h1 r (hq ▸ hr), h2⟩
    | cons req rest =>
      have hrest : ∀ r ∈ rest, r.pending = false :=
        fun r hr => h1 r (by simp [hq, hr])
      simp only [processRequests, hrun, Bool.false_eq_true, if_false, hq]
      by_cases ho1 : outcome = HASH_STATUS.STATUS_TOO_MANY_FILES_OPEN
      · simp only [ho1, if_pos rfl]
        refine ⟨?_, h2⟩
        intro r hr
        rcases List.mem_cons.mp hr with h | h
        · rw [h]
        · exact hrest r h
      · by_cases ho2 : outcome = HASH_STATUS.STATUS_OK
        · simp only [ho1, ho2, if_false, if_pos rfl, if_true]
          refine ⟨hrest, ?_⟩
          intro r hr
          rcases List.mem_append.mp hr with h | h
          · exact h2 r h
          · rcases List.mem_singleton.mp h with h'
            rw [h']
        · simp only [ho1, ho2, if_false]
          exact ⟨hrest, h2⟩

theorem serializerReachable_pending_false {os : Option Serializer}
    (hreach : SerializerReachable os) :
    ∀ s, os = some s →
      (∀ r ∈ s.requestList, r.pending = false) ∧
      (∀ r ∈ s.pendingList, r.pending = false) := by
  induction hreach with
  | start => intro s h; cases h
  | submit inst id src alg hprev ih =>
    intro s h
    injection h with h
    subst h
    cases inst with
    | none =>
      constructor
      · intro r hr
        simp [SubmitHashRequest, Serializer.mkNew] at hr
        rw [hr]
        rfl
      · intro r hr
        simp [SubmitHashRequest, Serializer.mkNew] at hr
    | some s0 =>
      obtain ⟨ih1, ih2⟩ := ih s0 rfl
      constructor
      · intro r hr
        simp only [SubmitHashRequest, Option.getD_some] at hr
        rcases List.mem_append.mp hr with hmem | hmem
        · exact ih1 r hmem
        · rw [List.mem_singleton.mp hmem]
          rfl
      · intro r hr
        simp only [SubmitHashRequest, Option.getD_some] at hr
        exact ih2 r hr
  | step s0 outcome hprev ih =>
    intro s h
    injection h with h
    subst h
    obtain ⟨ih1, ih2⟩ := ih s0 rfl
    exact processRequests_preserves_pending s0 outcome ih1 ih2
  | finish s0 workerId hprev ih =>
    intro s h
    obtain ⟨ih1, ih2⟩ := ih s0 rfl
    unfold workerDone at h
    by_cases h1 : ({ s0 with pendingList :=
        s0.pendingList.filter (fun item => item.id != workerId) } :
        Serializer).requestList.length > 0
    · rw [if_pos h1] at h
      injection h with h
      subst h
      refine ⟨ih1, ?_⟩
      intro r hr
      exact ih2 r (List.mem_of_mem_filter hr)
    · rw [if_neg h1] at h
      by_cases h2 : ({ s0 with pendingList :=
          s0.pendingList.filter (fun item => item.id != workerId) } :
          Serializer).pendingList.length ≤ 0
      · rw [if_pos h2] at h
        cases h
      · rw [if_neg h2] at h
        injection h with h
        subst h
        refine ⟨ih1, ?_⟩
        intro r hr
        exact ih2 r (List.mem_of_mem_filter hr)
  | recind s0 r hprev ih =>
    intro s h
    simp only [RecindHashRequest, destroySerializer] at h
    by_cases hact : s0.IsActive
    · rw [if_pos hact] at h
      injection h with h
      subst h
      exact ih s0 rfl
    · rw [if_neg hact] at h
      cases h

/- ================= Lemmas: uppercase-hex digests ================= -/

theorem hexChar_toUpper_mem : ∀ n, n < 16 →
    isUpperHexChar (Char.toUpper (hexChar n)) = true := by decide

theorem isUpperHex_jsToUpperCase_hexOfBytes (bs : List Nat) :
    isUpperHex (jsToUpperCase (hexOfBytes bs)) = true := by
  unfold isUpperHex jsToUpperCase hexOfBytes
  simp only [List.all_eq_true]
  intro c hc
  rw [List.mem_map] at hc
  obtain ⟨c0, hc0, hrfl⟩ := hc
  rw [List.mem_flatMap] at hc0
  obtain ⟨b, _, hcb⟩ := hc0
  subst hrfl
  rcases List.mem_cons.mp hcb with h | h
  · rw [h]
    exact hexChar_toUpper_mem _ (Nat.mod_lt _ (by omega))
  · rcases List.mem_singleton.mp h with h'
    rw [h']
    exact hexChar_toUpper_mem _ (Nat.mod_lt _ (by omega))

theorem combineDigest_mem_or_snapshot {h : String → String}
    {results : List ComputeResult} {d : String}
    (hc : combineDigest h results = some d) :
    (∃ r ∈ results, r.digest = some d) ∨ ∃ s, d = jsToUpperCase (h s) := by
  cases hP : presentDigests (jsArraySort jsDigestCompare results) with
  | nil =>
    rw [combineDigest_of_no_present
      (List.Perm.eq_nil (hP ▸ (presentDigests_sort_perm results).symm))] at hc
    cases hc
  | cons d0 rest =>
    rw [combineDigest_sorted_form hP] at hc
    by_cases hrest : rest = []
    · rw [if_pos hrest] at hc
      injection hc with hc
      left
      have hd0 : d0 ∈ presentDigests results :=
        (presentDigests_sort_perm results).subset (by rw [hP]; simp)
      rw [presentDigests] at hd0
      obtain ⟨r, hr, hdig⟩ := List.mem_filterMap.mp hd0
      exact ⟨r, hr, hc ▸ hdig⟩
    · rw [if_neg hrest] at hc
      injection hc with hc
      exact Or.inr ⟨d0 ++ concatAll rest, hc.symm⟩

mutual

theorem computeT_upperHex (hB : String → List Nat)
    (content : String → Option String) (algOk : Bool) :
    ∀ (t : FsTree) (d : String),
      (computeT hB content algOk t).digest = some d → isUpperHex d = true
  | .node k src dep dig b cs => by
    intro d hd
    cases k with
    | file =>
      simp only [computeT] at hd
      by_cases hok : sourceOk (.node .file src dep dig b cs) && !b
      · rw [if_pos hok] at hd
        simp only [Option.map_eq_some'] at hd
        obtain ⟨c, _, hrfl⟩ := hd
        rw [← hrfl]
        exact isUpperHex_jsToUpperCase_hexOfBytes (hB c)
      · rw [if_neg hok] at hd
        cases hd
    | directory =>
      simp only [computeT] at hd
      by_cases hok : sourceOk (.node .directory src dep dig b cs) &&
          !isBusyT (.node .directory src dep dig b cs)
      · rw [if_pos hok] at hd
        by_cases halg : algOk
        · rw [if_pos halg] at hd
          rcases combineDigest_mem_or_snapshot hd with ⟨r, hr, hdig⟩ | ⟨s0, hs0⟩
          · rcases List.mem_append.mp hr with hmem | hmem
            · exact computeResultsD_upperHex hB content algOk cs r hmem d hdig
            · exact computeResultsF_upperHex hB content algOk cs r hmem d hdig
          · rw [hs0]
            exact isUpperHex_jsToUpperCase_hexOfBytes _
        · rw [if_neg halg] at hd
          cases hd
      · rw [if_neg hok] at hd
        cases hd
    | batch =>
      simp only [computeT] at hd
      by_cases hok : sourceOk (.node .batch src dep dig b cs) &&
          !isBusyT (.node .batch src dep dig b cs)
      · rw [if_pos hok] at hd
        by_cases halg : algOk
        · rw [if_pos halg] at hd
          rcases combineDigest_mem_or_snapshot hd with ⟨r, hr, hdig⟩ | ⟨s0, hs0⟩
          · rcases List.mem_append.mp hr with hmem | hmem
            · exact computeResultsD_upperHex hB content algOk cs r hmem d hdig
            · exact computeResultsF_upperHex hB content algOk cs r hmem d hdig
          · rw [hs0]
            exact isUpperHex_jsToUpperCase_hexOfBytes _
        · rw [if_neg halg] at hd
          cases hd
      · rw [if_neg hok] at hd
        cases hd

theorem computeResultsD_upperHex (hB : String → List Nat)
    (content : String → Option String) (algOk : Bool) :
    ∀ (f : FsForest) (r : ComputeResult),
      r ∈ computeResultsD hB content algOk f →
      ∀ d, r.digest = some d → isUpperHex d = true
  | .nil => by
    intro r hr
    simp [computeResultsD] at hr
  | .cons t ts => by
    intro r hr d hd
    simp only [computeResultsD] at hr
    rcases List.mem_append.mp hr with hmem | hmem
    · cases hk : (t.kind == FSKind.directory) with
      | true =>
        rw [hk] at hmem
        simp only [if_true] at hmem
        rw [List.mem_singleton.mp hmem] at hd
        exact computeT_upperHex hB content algOk t d hd
      | false =>
        rw [hk] at hmem
        simp at hmem
    · exact computeResultsD_upperHex hB content algOk ts r hmem d hd

theorem computeResultsF_upperHex (hB : String → List Nat)
    (content : String → Option String) (algOk : Bool) :
    ∀ (f : FsForest) (r : ComputeResult),
      r ∈ computeResultsF hB content algOk f →
      ∀ d, r.digest = some d → isUpperHex d = true
  | .nil => by
    intro r hr
    simp [computeResultsF] at hr
  | .cons t ts => by
    intro r hr d hd
    simp only [computeResultsF] at hr
    rcases List.mem_append.mp hr with hmem | hmem
    · cases hk : (t.kind == FSKind.file) with
      | true =>
        rw [hk] at hmem
        simp only [if_true] at hmem
        rw [List.mem_singleton.mp hmem] at hd
        exact computeT_upperHex hB content algOk t d hd
      | false =>
        rw [hk] at hmem
        simp at hmem
    · exact computeResultsF_upperHex hB content algOk ts r hmem d hd

end

/- ================= Lemmas: busy flags and reports ================= -/

mutual

theorem isBusyT_eq_any :
    ∀ (t : FsTree), wellFormedT t = true →
      isBusyT t = (allNodes t).any (fun n => n.busyFlag)
  | .node k src dep dig b cs => by
    intro hwf
    cases k with
    | file =>
      cases cs with
      | nil =>
        simp [isBusyT, allNodes, allNodesF, FsTree.busyFlag]
      | cons t' ts' =>
        simp [wellFormedT] at hwf
    | directory =>
      simp only [wellFormedT] at hwf
      simp [isBusyT, allNodes, FsTree.busyFlag, isBusyF_eq_any cs hwf]
    | batch =>
      simp only [wellFormedT] at hwf
      simp [isBusyT, allNodes, FsTree.busyFlag, isBusyF_eq_any cs hwf]

theorem isBusyF_eq_any :
    ∀ (f : FsForest), wellFormedF f = true →
      isBusyF f = (allNodesF f).any (fun n => n.busyFlag)
  | .nil => by intro _; rfl
  | .cons t ts => by
    intro hwf
    simp only [wellFormedF, Bool.and_eq_true] at hwf
    simp [isBusyF, allNodesF, isBusyT_eq_any t hwf.1.2, isBusyF_eq_any ts hwf.2]

end

theorem baseReportVal_of_invalid {t : FsTree}
    (h : sourceOk t = false ∨ isBusyT t = true) :
    baseReportVal t = none := by
  unfold baseReportVal
  rcases h with h | h <;> simp [h]

theorem combineDigest_formula (h : String → String)
    (results : List ComputeResult) :
    combineDigest h results =
      match presentDigests (jsArraySort jsDigestCompare results) with
      | [] => none
      | d :: rest =>
        if rest = [] then some d
        else some (jsToUpperCase (h (d ++ concatAll rest))) := by
  cases hP : presentDigests (jsArraySort jsDigestCompare results) with
  | nil =>
    exact combineDigest_of_no_present
      ((hP ▸ presentDigests_sort_perm results).symm.eq_nil)
  | cons d rest =>
    exact combineDigest_sorted_form hP

theorem sortedDigests_eq_of_perm {l1 l2 : List ComputeResult}
    (hperm : l1.Perm l2) (hall : ∀ r ∈ l1, r.digest.isSome = true) :
    presentDigests (jsArraySort jsDigestCompare l1) =
      presentDigests (jsArraySort jsDigestCompare l2) := by
  have hall2 : ∀ r ∈ l2, r.digest.isSome = true :=
    fun r hr => hall r (hperm.symm.subset hr)
  rw [sortedDigests_eq_insertionSort hall, sortedDigests_eq_insertionSort hall2]
  have hpp : (presentDigests l1).Perm (presentDigests l2) := by
    unfold presentDigests
    exact hperm.filterMap (·.digest)
  exact List.eq_of_perm_of_sorted
    ((List.perm_insertionSort _ _).trans
      (hpp.trans (List.perm_insertionSort _ _).symm))
    (List.sorted_insertionSort _ _)
    (List.sorted_insertionSort _ _)

/- ================= Claim theorems ================= -/

/-- Claim C1, counterexample.  The claim states that the digest a directory
or batch `Compute` produces depends only on the multiset of the children's
settled digest values, for every permutation of the children.  This fails
when an absent digest sits among two or more present ones: the comparator
returns `0` for every pair involving the absent digest, so the sort keeps
`"B", absent, "A"` in place, and the two listing orders below — permutations
of the same settled results — fold different accumulator contents (here with
the hex function of the accumulator modelled by the identity; any digest
function distinguishing the concatenations `"BA"` and `"AB"`, as a
cryptographic hash does, exhibits the same failure). -/
theorem C1_counterexample :
    ([⟨"s1", some "B"⟩, ⟨"s2", none⟩, ⟨"s3", some "A"⟩] :
        List ComputeResult).Perm
      [⟨"s3", some "A"⟩, ⟨"s2", none⟩, ⟨"s1", some "B"⟩] ∧
    combineDigest (fun s => s)
        [⟨"s1", some "B"⟩, ⟨"s2", none⟩, ⟨"s3", some "A"⟩] ≠
      combineDigest (fun s => s)
        [⟨"s3", some "A"⟩, ⟨"s2", none⟩, ⟨"s1", some "B"⟩] := by
  constructor
  · decide
  · decide

/-- Claim C1, amended: for every digest function, permuting the settled
child results leaves the combined digest unchanged provided every settled
child digest is present (then the comparator is a total order on the
results, the sort output is the unique sorted digest sequence, and the fold
depends only on that sequence). -/
theorem C1_amended_perm_invariant (h : String → String)
    (l1 l2 : List ComputeResult) (hperm : l1.Perm l2)
    (hall : ∀ r ∈ l1, r.digest.isSome = true) :
    combineDigest h l1 = combineDigest h l2 := by
  rw [combineDigest_formula h l1, combineDigest_formula h l2,
    sortedDigests_eq_of_perm hperm hall]

/-- Witness for the amended C1 at a concrete permutation. -/
theorem C1_amended_perm_invariant_witness :
    combineDigest (fun s => s)
        [⟨"s1", some "B"⟩, ⟨"s2", some "C"⟩, ⟨"s3", some "A"⟩] =
      combineDigest (fun s => s)
        [⟨"s3", some "A"⟩, ⟨"s1", some "B"⟩, ⟨"s2", some "C"⟩] :=
  C1_amended_perm_invariant (fun s => s)
    [⟨"s1", some "B"⟩, ⟨"s2", some "C"⟩, ⟨"s3", some "A"⟩]
    [⟨"s3", some "A"⟩, ⟨"s1", some "B"⟩, ⟨"s2", some "C"⟩]
    (by decide) (by decide)

/-- Claim C2, counterexample.  The claim states that with two or more
digest-bearing children the node digest is the fold of the *sorted* child
digests through one accumulator.  When an absent digest sits among the
present ones this is false: for the settled results below (two hashed
children, one failed child) the engine sort leaves the present digests
in the order `"Q", "P"` (every comparison against the absent entry returns
`0`), so the fold feeds `"QP"` into the accumulator, whereas the fold of the
ascending-sorted digests would feed `"PQ"` — here with the hex function of
the accumulator modelled by the identity; any digest function separating
the two concatenations, as a cryptographic hash does, exhibits the same
failure. -/
theorem C2_counterexample :
    2 ≤ (presentDigests
        [⟨"t1", some "Q"⟩, ⟨"t2", none⟩, ⟨"t3", some "P"⟩]).length ∧
    combineDigest (fun s => s)
        [⟨"t1", some "Q"⟩, ⟨"t2", none⟩, ⟨"t3", some "P"⟩] = some "QP" ∧
    combineDigest (fun s => s)
        [⟨"t1", some "Q"⟩, ⟨"t2", none⟩, ⟨"t3", some "P"⟩] ≠
      some (jsToUpperCase ((fun s : String => s)
        (concatAll (List.insertionSort (fun a b : String => a ≤ b)
          (presentDigests
            [⟨"t1", some "Q"⟩, ⟨"t2", none⟩, ⟨"t3", some "P"⟩]))))) := by
  refine ⟨by decide, by decide, ?_⟩
  have hsort : List.insertionSort (fun a b : String => a ≤ b)
      (presentDigests [⟨"t1", some "Q"⟩, ⟨"t2", none⟩, ⟨"t3", some "P"⟩]) =
        ["P", "Q"] := by
    have hpd : presentDigests
        [⟨"t1", some "Q"⟩, ⟨"t2", none⟩, ⟨"t3", some "P"⟩] = ["Q", "P"] := rfl
    rw [hpd]
    simp only [List.insertionSort, List.orderedInsert]
    rw [if_neg]
    intro hc
    rw [String.le_iff_toList_le] at hc
    revert hc
    decide
  rw [hsort]
  decide

/-- Claim C2, amended: the combination step resolves an absent digest when
no child digest is present (also with no children at all); with exactly one
present child digest — absent siblings allowed — it passes that digest
through unchanged (not re-hashed); with two or more present digests it folds
them through one accumulator in the order the engine sort leaves them,
taking an uppercase-hex snapshot after each subsequent present digest, the
result being the snapshot of the whole concatenation; and that order is the
ascending digest order — making the result the digest of the sorted
concatenation — whenever every child is digest-bearing, while an absent
digest among the present ones can leave them unsorted (C1's finding). -/
theorem C2_combine_cases (h : String → String) (results : List ComputeResult) :
    (presentDigests results = [] → combineDigest h results = none) ∧
    (∀ d, presentDigests results = [d] → combineDigest h results = some d) ∧
    ((∀ r ∈ results, r.digest.isSome = true) →
      combineDigest h results =
        match List.insertionSort (fun a b : String => a ≤ b)
            (presentDigests results) with
        | [] => none
        | [d] => some d
        | d :: rest => some (jsToUpperCase (h (concatAll (d :: rest))))) ∧
    (∀ d rest,
      presentDigests (jsArraySort jsDigestCompare results) = d :: rest →
      rest ≠ [] →
      combineDigest h results =
        some (jsToUpperCase (h (d ++ concatAll rest)))) := by
  refine ⟨fun hP => combineDigest_of_no_present hP,
          fun d hP => combineDigest_of_single_present hP, ?_, ?_⟩
  · intro hall
    rw [combineDigest_formula h results, sortedDigests_eq_insertionSort hall]
    cases hsorted : List.insertionSort (fun a b : String => a ≤ b)
        (presentDigests results) with
    | nil => rfl
    | cons d rest =>
      cases rest with
      | nil => rfl
      | cons d2 rest2 =>
        simp [concatAll]
  · intro d rest hP hne
    rw [combineDigest_sorted_form hP, if_neg hne]

/-- Witness for the amended C2 at concrete inputs exercising all four
cases, the last one a present/absent mixture folded in engine-sort order. -/
theorem C2_combine_cases_witness :
    combineDigest (fun s => s) [⟨"a", none⟩] = none ∧
    combineDigest (fun s => s) [⟨"a", some "X"⟩, ⟨"b", none⟩] = some "X" ∧
    combineDigest (fun s => s) [⟨"a", some "y"⟩, ⟨"b", some "x"⟩] =
      some "XY" ∧
    combineDigest (fun s => s)
        [⟨"u1", some "n"⟩, ⟨"u2", none⟩, ⟨"u3", some "m"⟩] = some "NM" := by
  refine ⟨?_, ?_, ?_, ?_⟩
  · exact (C2_combine_cases (fun s => s) [⟨"a", none⟩]).1 (by decide)
  · exact (C2_combine_cases (fun s => s)
      [⟨"a", some "X"⟩, ⟨"b", none⟩]).2.1 "X" (by decide)
  · have hres := (C2_combine_cases (fun s => s)
      [⟨"a", some "y"⟩, ⟨"b", some "x"⟩]).2.2.1 (by decide)
    have hsort : List.insertionSort (fun a b : String => a ≤ b)
        (presentDigests [⟨"a", some "y"⟩, ⟨"b", some "x"⟩]) = ["x", "y"] := by
      have hpd : presentDigests [⟨"a", some "y"⟩, ⟨"b", some "x"⟩] =
          ["y", "x"] := rfl
      rw [hpd]
      simp only [List.insertionSort, List.orderedInsert]
      rw [if_neg]
      intro hc
      rw [String.le_iff_toList_le] at hc
      revert hc
      decide
    rw [hres, hsort]
    decide
  · have hres := (C2_combine_cases (fun s => s)
      [⟨"u1", some "n"⟩, ⟨"u2", none⟩, ⟨"u3", some "m"⟩]).2.2.2
        "n" ["m"] (by decide) (by decide)
    rw [hres]
    decide

/-- Claim C3: in a processing step on a non-empty queue (guard clear), the
head request is popped exactly when the prepare outcome is not
too-many-files-open; on that outcome the same request (same identity) stays
at the head with the queue length unchanged; an unrecognized algorithm pops
the request and notifies its waiter with the invalid-algorithm status and no
digest; and after N too-many-files-open outcomes followed by a success the
request has left the queue exactly once — the rest of the queue untouched —
sits once in the pending list having been dequeued N + 1 times (N retries),
and its stream's end notifies the waiter with status OK and a present
digest. -/
theorem C3_admission_retry (s : Serializer) (req : HashRequest)
    (rest : List HashRequest) (hq : s.requestList = req :: rest)
    (hr : s.running = false) :
    (∀ outcome, (processRequests s outcome).1.requestList = rest ↔
        outcome ≠ HASH_STATUS.STATUS_TOO_MANY_FILES_OPEN) ∧
    ((processRequests s
        HASH_STATUS.STATUS_TOO_MANY_FILES_OPEN).1.requestList.head?.map (·.id) =
          some req.id ∧
     (processRequests s
        HASH_STATUS.STATUS_TOO_MANY_FILES_OPEN).1.requestList.length =
          s.requestList.length) ∧
    (processRequests s HASH_STATUS.STATUS_ERR_INVALID_ALGORITHM =
      ({ s with requestList := rest },
       [HashEvent.dequeued req.id (req.dequeueCount + 1),
        HashEvent.complete req.id HASH_STATUS.STATUS_ERR_INVALID_ALGORITHM
          none])) ∧
    (∀ N : Nat,
      (((fun st =>
          (processRequests st HASH_STATUS.STATUS_TOO_MANY_FILES_OPEN).1)^[N])
            s).requestList.head?.map (·.id) = some req.id ∧
      (((fun st =>
          (processRequests st HASH_STATUS.STATUS_TOO_MANY_FILES_OPEN).1)^[N])
            s).requestList.length = s.requestList.length ∧
      (processRequests
          (((fun st =>
            (processRequests st HASH_STATUS.STATUS_TOO_MANY_FILES_OPEN).1)^[N])
              s)
          HASH_STATUS.STATUS_OK).1 =
        { s with requestList := rest,
                 pendingList := s.pendingList ++
                   [{ req with dequeueCount := req.dequeueCount + N + 1,
                               pending := false }] }) ∧
    (∀ (hB : String → List Nat) (content : String) (r : HashRequest),
      workerStreamEnd hB r content =
        HashEvent.complete r.id HASH_STATUS.STATUS_OK
          (some (jsToUpperCase (hexOfBytes (hB content)))) ∧
      (workerStreamEnd hB r content) ≠
        HashEvent.complete r.id HASH_STATUS.STATUS_OK none) := by
  refine ⟨?_, ?_, ?_, ?_, ?_⟩
  · intro outcome
    constructor
    · intro heq hcon
      subst hcon
      rw [processRequests_tooMany hq hr] at heq
      simp at heq
    · intro hne
      by_cases hok : outcome = HASH_STATUS.STATUS_OK
      · subst hok
        rw [processRequests_ok hq hr]
      · rw [processRequests_fatal hq hr hne hok]
  · rw [processRequests_tooMany hq hr]
    simp [hq]
  · exact processRequests_fatal hq hr (by intro hc; cases hc) (by intro hc; cases hc)
  · intro N
    rw [processRequests_iterate_tooMany N s req rest hq hr]
    refine ⟨by simp, by simp [hq], ?_⟩
    simp [processRequests, hr, Nat.add_assoc]
  · intro hB content r
    constructor
    · rfl
    · simp [workerStreamEnd]

/-- Witness for C3 at a concrete serializer state with one queued request. -/
theorem C3_admission_retry_witness :
    (∀ outcome,
      (processRequests ⟨[HashRequest.mkNew 7 "/tmp/a.txt" "sha256"], [], false⟩
          outcome).1.requestList = [] ↔
        outcome ≠ HASH_STATUS.STATUS_TOO_MANY_FILES_OPEN) ∧
    ((processRequests ⟨[HashRequest.mkNew 7 "/tmp/a.txt" "sha256"], [], false⟩
        HASH_STATUS.STATUS_TOO_MANY_FILES_OPEN).1.requestList.head?.map (·.id) =
          some (HashRequest.mkNew 7 "/tmp/a.txt" "sha256").id ∧
     (processRequests ⟨[HashRequest.mkNew 7 "/tmp/a.txt" "sha256"], [], false⟩
        HASH_STATUS.STATUS_TOO_MANY_FILES_OPEN).1.requestList.length =
          (⟨[HashRequest.mkNew 7 "/tmp/a.txt" "sha256"], [], false⟩ :
            Serializer).requestList.length) ∧
    (processRequests ⟨[HashRequest.mkNew 7 "/tmp/a.txt" "sha256"], [], false⟩
        HASH_STATUS.STATUS_ERR_INVALID_ALGORITHM =
      ({ (⟨[HashRequest.mkNew 7 "/tmp/a.txt" "sha256"], [], false⟩ :
            Serializer) with requestList := [] },
       [HashEvent.dequeued (HashRequest.mkNew 7 "/tmp/a.txt" "sha256").id
          ((HashRequest.mkNew 7 "/tmp/a.txt" "sha256").dequeueCount + 1),
        HashEvent.complete (HashRequest.mkNew 7 "/tmp/a.txt" "sha256").id
          HASH_STATUS.STATUS_ERR_INVALID_ALGORITHM none])) ∧
    (∀ N : Nat,
      (((fun st =>
          (processRequests st HASH_STATUS.STATUS_TOO_MANY_FILES_OPEN).1)^[N])
            ⟨[HashRequest.mkNew 7 "/tmp/a.txt" "sha256"], [], false⟩
          ).requestList.head?.map (·.id) =
            some (HashRequest.mkNew 7 "/tmp/a.txt" "sha256").id ∧
      (((fun st =>
          (processRequests st HASH_STATUS.STATUS_TOO_MANY_FILES_OPEN).1)^[N])
            ⟨[HashRequest.mkNew 7 "/tmp/a.txt" "sha256"], [], false⟩
          ).requestList.length =
            (⟨[HashRequest.mkNew 7 "/tmp/a.txt" "sha256"], [], false⟩ :
              Serializer).requestList.length ∧
      (processRequests
          (((fun st =>
            (processRequests st HASH_STATUS.STATUS_TOO_MANY_FILES_OPEN).1)^[N])
              ⟨[HashRequest.mkNew 7 "/tmp/a.txt" "sha256"], [], false⟩)
          HASH_STATUS.STATUS_OK).1 =
        { (⟨[HashRequest.mkNew 7 "/tmp/a.txt" "sha256"], [], false⟩ :
            Serializer) with
          requestList := [],
          pendingList := [] ++
            [{ HashRequest.mkNew 7 "/tmp/a.txt" "sha256" with
               dequeueCount :=
                 (HashRequest.mkNew 7 "/tmp/a.txt" "sha256").dequeueCount + N + 1,
               pending := false }] }) ∧
    (∀ (hB : String → List Nat) (content : String) (r : HashRequest),
      workerStreamEnd hB r content =
        HashEvent.complete r.id HASH_STATUS.STATUS_OK
          (some (jsToUpperCase (hexOfBytes (hB content)))) ∧
      (workerStreamEnd hB r content) ≠
        HashEvent.complete r.id HASH_STATUS.STATUS_OK none) :=
  C3_admission_retry ⟨[HashRequest.mkNew 7 "/tmp/a.txt" "sha256"], [], false⟩
    (HashRequest.mkNew 7 "/tmp/a.txt" "sha256") [] rfl rfl

/-- Claim C4, code-bug evidence.  `RecindHashRequest` is documented as
rescinding (withdrawing) a not-yet-opening request, and the claim says the
request is removed from the queue exactly when `true` is returned.  The code
only *finds* the request and reports success: on a singleton queue holding a
not-pending request it returns `true`, yet the serializer state — including
the request list, which still holds the request for later processing — is
unchanged. -/
theorem C4_recind_reports_removal_but_removes_nothing :
    (RecindHashRequest
        (some ⟨[HashRequest.mkNew 3 "/tmp/f.txt" "sha256"], [], false⟩)
        (HashRequest.mkNew 3 "/tmp/f.txt" "sha256")).1 = true ∧
    (RecindHashRequest
        (some ⟨[HashRequest.mkNew 3 "/tmp/f.txt" "sha256"], [], false⟩)
        (HashRequest.mkNew 3 "/tmp/f.txt" "sha256")).2 =
      some ⟨[HashRequest.mkNew 3 "/tmp/f.txt" "sha256"], [], false⟩ ∧
    (HashRequest.mkNew 3 "/tmp/f.txt" "sha256").IsPending = false := by
  refine ⟨?_, ?_, rfl⟩
  · decide
  · decide

/-- Claim C5, counterexample.  The claim states that a directory or batch
build resolves the logical AND of all child build results.  A batch whose
source array is empty (facade `Build([])` classifies an empty array as a
batch) constructs no children, and the AND over zero children is `true`,
but the code starts the distilled result at `childBuildPromises.length > 0`
and therefore resolves `false`. -/
theorem C5_counterexample :
    batchBuildResult [] = false ∧
    (childBuildResults []).all id = true := by
  exact ⟨rfl, rfl⟩

/-- Claim C5, amended: an empty directory listing resolves `true` with no
children; when at least one child was constructed, both the directory and
the batch build resolve the AND of the constructed children's results; but
when the listing (or batch array) constructs no children, the directory
build resolves `false` unless the listing was empty, and the batch build
always resolves `false` — including for the empty batch. -/
theorem C5_build_result_distilled (entries : List DirEntryClass) :
    dirBuildResult entries =
      (if entries = [] then true
       else if childBuildResults entries = [] then false
       else (childBuildResults entries).all id) ∧
    batchBuildResult entries =
      (if childBuildResults entries = [] then false
       else (childBuildResults entries).all id) := by
  constructor
  · unfold dirBuildResult
    by_cases he : entries = []
    · simp [he]
    · have hlen : entries.length > 0 := List.length_pos.mpr he
      rw [if_pos hlen, if_neg he]
      by_cases hc : childBuildResults entries = []
      · simp [hc]
      · have hclen : (childBuildResults entries).length > 0 :=
          List.length_pos.mpr hc
        simp [hc, hclen]
  · unfold batchBuildResult
    by_cases hc : childBuildResults entries = []
    · simp [hc]
    · have hclen : (childBuildResults entries).length > 0 :=
        List.length_pos.mpr hc
      simp [hc, hclen]

/-- Claim C6, counterexample.  The claim states that `Report` on a busy (or
unbuilt) node resolves an absent result.  That is what the file/base
implementation does, but `DirectoryHashEntry.Report` pushes its own `null`
base report into the result array before checking it, so a busy directory
resolves the one-element array `[null]` — not an absent result. -/
theorem C6_counterexample :
    reportT (.node .directory (some "/d") 0 none true .nil) =
      ReportValue.list [none] ∧
    ReportValue.list [none] ≠ ReportValue.single none := by
  exact ⟨rfl, by decide⟩

/-- Claim C6, amended: calling `Report` on a busy node, or on a node that
was never built (no source), raises no error and yields a report with no
record in it — `null` itself for a file node, and the one-element array
`[null]` (an array whose only entry is absent, with no children visited)
for a directory or batch node. -/
theorem C6_report_busy_or_unbuilt (t : FsTree)
    (h : sourceOk t = false ∨ isBusyT t = true) :
    (t.kind = FSKind.file → reportT t = ReportValue.single none) ∧
    (t.kind ≠ FSKind.file → reportT t = ReportValue.list [none]) := by
  have hbase : baseReportVal t = none := baseReportVal_of_invalid h
  obtain ⟨k, src, dep, dig, b, cs⟩ := t
  cases k with
  | file =>
    refine ⟨fun _ => ?_, fun hne => absurd rfl hne⟩
    simp only [reportT, hbase]
  | directory =>
    refine ⟨fun hf => (nomatch hf), fun _ => ?_⟩
    simp only [reportT, hbase]
  | batch =>
    refine ⟨fun hf => (nomatch hf), fun _ => ?_⟩
    simp only [reportT, hbase]

/-- Witness for the amended C6 at a busy directory and at a busy file. -/
theorem C6_report_busy_or_unbuilt_witness :
    reportT (.node .directory (some "/e") 0 none true .nil) =
      ReportValue.list [none] := by
  exact (C6_report_busy_or_unbuilt (.node .directory (some "/e") 0 none true .nil)
    (Or.inr rfl)).2 (by decide)

/-- Claim C7: the facade `Compute` resolves the empty string when no tree
has been built or the root source is busy, and any digest string it
resolves on a built, non-busy tree is uppercase hexadecimal (an absent root
digest stays an absent — falsy — sentinel); the facade `Report` likewise
resolves the empty string when unbuilt or busy; and `Build` on a source
classified invalid or other resolves `false`.  None of these normal-failure
paths raises. -/
theorem C7_facade_sentinels (hB : String → List Nat)
    (content : String → Option String) (t : FsTree) :
    facadeComputeVal hB content true none = some "" ∧
    (isBusyT t = true → facadeComputeVal hB content true (some t) = some "") ∧
    (∀ d, facadeComputeVal hB content true (some t) = some d →
      d = "" ∨ isUpperHex d = true) ∧
    facadeReportVal none = "" ∧
    (isBusyT t = true → facadeReportVal (some t) = "") ∧
    (∀ b, facadeBuildVal FILE_SYSTEM_TYPES.INVALID b = false ∧
          facadeBuildVal FILE_SYSTEM_TYPES.OTHER b = false) := by
  refine ⟨rfl, ?_, ?_, rfl, ?_, fun b => ⟨rfl, rfl⟩⟩
  · intro hb
    simp [facadeComputeVal, hb]
  · intro d hd
    rw [show facadeComputeVal hB content true (some t) =
        (if isBusyT t = true then some ""
         else (computeT hB content true t).digest) from rfl] at hd
    by_cases hb : isBusyT t = true
    · rw [if_pos hb] at hd
      injection hd with hd
      exact Or.inl hd.symm
    · rw [if_neg hb] at hd
      exact Or.inr (computeT_upperHex hB content true t d hd)
  · intro hb
    simp [facadeReportVal, hb]

/-- Witness for C7 at a busy directory root. -/
theorem C7_facade_sentinels_witness :
    facadeComputeVal (fun _ => []) (fun _ => none) true
        (some (.node .directory (some "/d") 0 none true .nil)) = some "" ∧
    facadeReportVal (some (.node .directory (some "/d") 0 none true .nil)) =
      "" := by
  constructor
  · exact (C7_facade_sentinels (fun _ => []) (fun _ => none)
      (.node .directory (some "/d") 0 none true .nil)).2.1 rfl
  · exact (C7_facade_sentinels (fun _ => []) (fun _ => none)
      (.node .directory (some "/d") 0 none true .nil)).2.2.2.2.1 rfl

/-- Claim C8: when the child-digest combination step of a directory or
batch `Compute` throws, the node's promise still resolves — with digest
`null` — and an `FSHashError` is additionally raised carrying the node's
source, the algorithm in use, and the error detail. -/
theorem C8_combine_exception_resolves_null_and_raises (h : String → String)
    (src alg detail : String) (results : List ComputeResult) :
    (dirComputeCombineRun h src alg results (some detail)).1 =
      { source := src, digest := none } ∧
    (dirComputeCombineRun h src alg results (some detail)).2 =
      some { source := some src, algorithm := some alg,
             errDetail := some detail,
             filename :=
               some "fsDirectoryHashEntry.js DirectoryHashEntry::Compute" } ∧
    (dirComputeCombineRun h src alg results none).2 = none :=
  ⟨rfl, rfl, rfl⟩

/-- Claim C9: a directory or batch node's `IsBusy` ORs its own flag with
every child's `IsBusy` recursively, so it is exactly "some node of the
subtree has its busy flag set", and the facade's `IsBusy` reports exactly
that for the whole built tree (and `false` with no root source). -/
theorem C9_isBusy_whole_subtree (t : FsTree) (hwf : wellFormedT t = true) :
    isBusyT t = (allNodes t).any (fun n => n.busyFlag) ∧
    (facadeIsBusy (some t) = true ↔ ∃ n ∈ allNodes t, n.busyFlag = true) ∧
    facadeIsBusy none = false := by
  refine ⟨isBusyT_eq_any t hwf, ?_, rfl⟩
  show isBusyT t = true ↔ _
  rw [isBusyT_eq_any t hwf, List.any_eq_true]

/-- Witness for C9 at a two-node tree whose only busy node is the leaf. -/
theorem C9_isBusy_whole_subtree_witness :
    isBusyT (.node .directory (some "/d") 0 none false
        (.cons (.node .file (some "/d/f.txt") 1 none true .nil) .nil)) =
      (allNodes (.node .directory (some "/d") 0 none false
        (.cons (.node .file (some "/d/f.txt") 1 none true .nil) .nil))).any
          (fun n => n.busyFlag) ∧
    (facadeIsBusy (some (.node .directory (some "/d") 0 none false
        (.cons (.node .file (some "/d/f.txt") 1 none true .nil) .nil))) = true ↔
      ∃ n ∈ allNodes (.node .directory (some "/d") 0 none false
        (.cons (.node .file (some "/d/f.txt") 1 none true .nil) .nil)),
        n.busyFlag = true) ∧
    facadeIsBusy none = false :=
  C9_isBusy_whole_subtree
    (.node .directory (some "/d") 0 none false
      (.cons (.node .file (some "/d/f.txt") 1 none true .nil) .nil)) (by decide)

theorem find?_pending_eq {l : List HashRequest}
    (hall : ∀ x ∈ l, x.pending = false) (r : HashRequest) :
    l.find? (fun item => item.id == r.id && !item.IsPending) =
      l.find? (fun item => item.id == r.id) := by
  induction l with
  | nil => rfl
  | cons x xs ih =>
    have hx : x.pending = false := hall x (by simp)
    have hxs : ∀ y ∈ xs, y.pending = false := fun y hy => hall y (by simp [hy])
    by_cases hid : x.id = r.id
    · simp [List.find?_cons, beq_iff_eq, hid, HashRequest.IsPending, hx]
    · have hih := ih hxs
      simp only [HashRequest.IsPending] at hih
      simp [List.find?_cons, beq_iff_eq, hid, HashRequest.IsPending, hx, hih]

/-- Claim C10: in every serializer state reachable through the module's
operations, the pending flag of every queued request (and of every request
cached by a pending worker) is `false` — the request constructor initializes
it `false` and the worker constructor assigns `false` again, never `true` —
so `IsPending` is `false` throughout and the not-yet-pending condition
`RecindHashRequest` tests is vacuously satisfied: its search reduces to a
pure identity search. -/
theorem C10_pending_always_false (s : Serializer)
    (hreach : SerializerReachable (some s)) :
    (∀ r ∈ s.requestList, r.IsPending = false) ∧
    (∀ r ∈ s.pendingList, r.IsPending = false) ∧
    (∀ r : HashRequest,
      s.requestList.find? (fun item => item.id == r.id && !item.IsPending) =
        s.requestList.find? (fun item => item.id == r.id)) := by
  obtain ⟨h1, h2⟩ := serializerReachable_pending_false hreach s rfl
  exact ⟨fun r hr => h1 r hr, fun r hr => h2 r hr,
         fun r => find?_pending_eq h1 r⟩

/-- Witness for C10 at the state reached by a single submission. -/
theorem C10_pending_always_false_witness :
    (∀ r ∈ (SubmitHashRequest none
        (HashRequest.mkNew 1 "/tmp/x.bin" "md5")).requestList,
      r.IsPending = false) ∧
    (∀ r ∈ (SubmitHashRequest none
        (HashRequest.mkNew 1 "/tmp/x.bin" "md5")).pendingList,
      r.IsPending = false) ∧
    (∀ r : HashRequest,
      (SubmitHashRequest none
          (HashRequest.mkNew 1 "/tmp/x.bin" "md5")).requestList.find?
            (fun item => item.id == r.id && !item.IsPending) =
        (SubmitHashRequest none
            (HashRequest.mkNew 1 "/tmp/x.bin" "md5")).requestList.find?
              (fun item => item.id == r.id)) :=
  C10_pending_always_false
    (SubmitHashRequest none (HashRequest.mkNew 1 "/tmp/x.bin" "md5"))
    (SerializerReachable.submit none 1 "/tmp/x.bin" "md5"
      SerializerReachable.start)
